import Mathlib

/-!
Verification development for the Quant-Dash repository.

The repository contains a Go REST backend (handlers, CORS middleware) and a
planning document for a real-time market-data hub.  The planning document
carries one genuine code snippet, the `BaselinePredictor` exponential-smoothing
class; it is embedded here verbatim.  The hub itself (subscription registry,
stale-tick suppression, throttling, bounded queues, inbound validation) exists
in the repository only as design intent, so those components are modelled from
the specification, as marked on each definition.

Prices and smoothing state are embedded as exact rationals; timestamps as
naturals (milliseconds).
-/

namespace QuantDash

/-! ## Predictor (embedded from `BaselinePredictor` in the planning document)

```python
class BaselinePredictor:
    def __init__(self, alpha=0.3): self.alpha, self._ewma = alpha, {}
    def update_and_predict(self, symbol, price):
        prev = self._ewma.get(symbol, price)
        ewma = self.alpha*price + (1-self.alpha)*prev
        self._ewma[symbol] = ewma
        return ewma
```
The `_ewma` dict is embedded as a function `String → Option ℚ`, `none`
standing for an absent key, so `dict.get(symbol, price)` is `getD price`. -/

structure BaselinePredictor where
  alpha : ℚ
  ewma : String → Option ℚ

/-- `BaselinePredictor.__init__`: given alpha, the `_ewma` dict starts empty. -/
def BaselinePredictor.init (alpha : ℚ) : BaselinePredictor :=
  { alpha := alpha, ewma := fun _ => none }

/-- Store a key in the `_ewma` dict (`self._ewma[symbol] = ewma`). -/
def dictInsert (d : String → Option ℚ) (symbol : String) (e : ℚ) : String → Option ℚ :=
  fun s => if s = symbol then some e else d s

/-- `BaselinePredictor.update_and_predict`, returning the predicted value and
the updated predictor state. -/
def update_and_predict (m : BaselinePredictor) (symbol : String) (price : ℚ) :
    ℚ × BaselinePredictor :=
  let prev := (m.ewma symbol).getD price
  let e := m.alpha * price + (1 - m.alpha) * prev
  (e, { m with ewma := dictInsert m.ewma symbol e })

/-- Run the predictor over a sequence of (symbol, price) observations,
collecting the (symbol, predicted) outputs in order. -/
def runPredictor (m : BaselinePredictor) : List (String × ℚ) → List (String × ℚ)
  | [] => []
  | (s, p) :: rest =>
      let r := update_and_predict m s p
      (s, r.1) :: runPredictor r.2 rest

/-- Predictions for a single symbol: the per-symbol output trace. -/
def outputsFor (s : String) (outs : List (String × ℚ)) : List ℚ :=
  (outs.filter (fun o => o.1 = s)).map (fun o => o.2)

/-! ## REST handlers (embedded from the Go backend)

`Handlers.GetStock` builds a fixed placeholder object whose `symbol` field is
the path parameter; `100.50 = 201/2`, `1.25 = 5/4`, `15.5 = 31/2`. -/

structure Stock where
  symbol : String
  name : String
  price : ℚ
  change : ℚ
  volume : Nat
  market_cap : String
  pe_ratio : ℚ
deriving DecidableEq

/-- `Handlers.GetStock`: the body of the Go handler, which never rejects and
always writes this object as JSON. -/
def GetStock (symbol : String) : Stock :=
  { symbol := symbol
    name := "Sample Stock"
    price := 201/2
    change := 5/4
    volume := 1000000
    market_cap := "1B"
    pe_ratio := 31/2 }

/-! ## CORS middleware (embedded from the Go `corsMiddleware`) -/

structure Request where
  method : String

/-- A pure model of `http.ResponseWriter`: accumulated headers and the status
code written (if any). -/
structure ResponseWriter where
  headers : List (String × String)
  status : Option Nat
deriving DecidableEq

/-- `w.Header().Set(k, v)`: replaces any previous value of the key. -/
def setHeader (w : ResponseWriter) (k v : String) : ResponseWriter :=
  { w with headers := (k, v) :: w.headers.filter (fun p => p.1 ≠ k) }

/-- Look a header key up in the writer. -/
def getHeader (w : ResponseWriter) (k : String) : Option String :=
  (w.headers.find? (fun p => p.1 = k)).map (fun p => p.2)

/-- A handler consumes the writer and request and produces the final writer;
this is the pure shape of `ServeHTTP`. -/
def Handler : Type := ResponseWriter → Request → ResponseWriter

/-- `corsMiddleware` from `cmd/server/main.go`: sets the three CORS headers,
answers OPTIONS requests with 200 without calling `next`, and otherwise passes
the request on. -/
def corsMiddleware (next : Handler) : Handler := fun w r =>
  let w1 := setHeader w "Access-Control-Allow-Origin" "*"
  let w2 := setHeader w1 "Access-Control-Allow-Methods" "GET, POST, PUT, DELETE, OPTIONS"
  let w3 := setHeader w2 "Access-Control-Allow-Headers" "Origin, Content-Type, X-Auth-Token"
  if r.method = "OPTIONS" then { w3 with status := some 200 }
  else next w3 r

/-- The writer state after the three header writes of `corsMiddleware`,
before the method test. -/
def corsHeaders (w : ResponseWriter) : ResponseWriter :=
  setHeader
    (setHeader
      (setHeader w "Access-Control-Allow-Origin" "*")
      "Access-Control-Allow-Methods" "GET, POST, PUT, DELETE, OPTIONS")
    "Access-Control-Allow-Headers" "Origin, Content-Type, X-Auth-Token"

/-! ## Subscription registry

Modelled from the spec: the repository's plan only sketches the hub as a
`subscriptions: dict[str, set[WebSocket]]` with "on first subscriber →
provider.subscribe; on last disconnect → provider.unsubscribe"; no working
code exists.  The model below follows §4.2 of the spec: `addInterest`
registers interest and subscribes upstream on the first subscriber,
`removeInterest` unsubscribes upstream on the last, and session teardown
removes every subscription the session holds. -/

structure RegState where
  interest : List (String × Nat)
  upstream : List String

/-- The empty registry: no interest, nothing subscribed upstream. -/
def RegState.init : RegState := ⟨[], []⟩

/-- Modelled from the spec: `addInterest(symbol, consumerID)`; idempotent, and
when this is the symbol's first subscriber the upstream subscription is
created. -/
def addInterest (st : RegState) (sym : String) (sid : Nat) : RegState :=
  if (sym, sid) ∈ st.interest then st
  else
    { interest := (sym, sid) :: st.interest
      upstream :=
        if st.interest.any (fun p => p.1 = sym) then st.upstream
        else sym :: st.upstream }

/-- Modelled from the spec: `removeInterest(symbol, consumerID)`; when this was
the symbol's last subscriber the upstream subscription is removed. -/
def removeInterest (st : RegState) (sym : String) (sid : Nat) : RegState :=
  let rest := st.interest.filter (fun p => p ≠ (sym, sid))
  { interest := rest
    upstream :=
      if rest.any (fun p => p.1 = sym) then st.upstream
      else st.upstream.filter (fun t => t ≠ sym) }

/-- Modelled from the spec: session teardown atomically removes all of the
session's subscriptions, decrementing reference counts and possibly
triggering upstream unsubscribes. -/
def teardown (st : RegState) (sid : Nat) : RegState :=
  ((st.interest.filter (fun p => p.2 = sid)).map (fun p => p.1)).foldl
    (fun s y => removeInterest s y sid) st

/-- A subscribe / unsubscribe / session-teardown event, from any session. -/
inductive RegEvent
  | sub (sym : String) (sid : Nat)
  | unsub (sym : String) (sid : Nat)
  | disconnect (sid : Nat)

/-- One registry transition. -/
def regStep (st : RegState) : RegEvent → RegState
  | .sub sym sid => addInterest st sym sid
  | .unsub sym sid => removeInterest st sym sid
  | .disconnect sid => teardown st sid

/-- Run a sequence of subscription events from the empty registry. -/
def regRun (es : List RegEvent) : RegState :=
  es.foldl regStep RegState.init

/-! ## Hub inbound-message validation

Modelled from the spec (§4.5, §7): inbound subscribe/unsubscribe requests are
validated; an unknown symbol or a malformed message yields a StatusEvent error
reply to that session only, the connection stays open, and the hub state is
untouched. -/

inductive InMsg
  | subscribe (sym : String)
  | unsubscribe (sym : String)
  | malformed (raw : String)

inductive OutMsg
  | tick (sym : String) (price : ℚ) (ts : Nat)
  | prediction (sym : String) (price : ℚ) (ts : Nat)
  | statusError (detail : String)
deriving DecidableEq

/-- Hub state as seen by the inbound path: the registry plus the set of
active (open) session ids. -/
structure HubState where
  reg : RegState
  active : List Nat

/-- Does this inbound message violate the protocol (malformed, or a symbol
outside the known list)? -/
def protocolError (known : List String) : InMsg → Bool
  | .subscribe sym => !known.contains sym
  | .unsubscribe sym => !known.contains sym
  | .malformed _ => true

/-- Modelled from the spec: handle one inbound client message.  Valid requests
go to the registry; protocol errors produce a StatusEvent error reply to the
offending session and leave everything else alone. -/
def handleInbound (known : List String) (st : HubState) (sid : Nat) :
    InMsg → HubState × List (Nat × OutMsg)
  | .subscribe sym =>
      if known.contains sym then
        ({ st with reg := addInterest st.reg sym sid }, [])
      else (st, [(sid, .statusError "unknown symbol")])
  | .unsubscribe sym =>
      if known.contains sym then
        ({ st with reg := removeInterest st.reg sym sid }, [])
      else (st, [(sid, .statusError "unknown symbol")])
  | .malformed _ => (st, [(sid, .statusError "malformed message")])

/-! ## Hub tick path: prediction emission

Modelled from the spec (§4.4, §8): on each upstream tick the hub emits the
tick message and, when the symbol has a prior EWMA baseline, a prediction
message computed by the predictor; on the very first observation of a symbol
no prediction is emitted and the first price becomes the baseline.  The
prediction value itself comes from the repository's `update_and_predict`. -/

def hubOnTick (st : BaselinePredictor) (sym : String) (price : ℚ) (ts : Nat) :
    List OutMsg × BaselinePredictor :=
  let first := (st.ewma sym).isNone
  let r := update_and_predict st sym price
  (if first then [.tick sym price ts]
   else [.tick sym price ts, .prediction sym r.1 ts], r.2)

/-- Run the hub tick path over a list of (symbol, price, timestamp) ticks,
returning all emitted messages in order and the final predictor state. -/
def hubRun (st : BaselinePredictor) :
    List (String × ℚ × Nat) → List OutMsg × BaselinePredictor
  | [] => ([], st)
  | (s, p, t) :: rest =>
      let r := hubOnTick st s p t
      let rr := hubRun r.2 rest
      (r.1 ++ rr.1, rr.2)

/-! ## Stale-tick suppression

Modelled from the spec (§4.4, §5): a tick whose timestamp is not strictly
greater than the last delivered timestamp for its symbol is discarded; fresh
ticks are delivered in arrival order. -/

structure Tick where
  symbol : String
  price : ℚ
  ts : Nat
deriving DecidableEq

/-- Modelled from the spec: process the upstream tick stream, keeping the last
delivered timestamp per symbol and dropping stale ticks. -/
def deliverTicks (last : String → Option Nat) : List Tick → List Tick
  | [] => []
  | t :: rest =>
      match last t.symbol with
      | some m =>
          if t.ts ≤ m then deliverTicks last rest
          else t :: deliverTicks (fun s => if s = t.symbol then some t.ts else last s) rest
      | none => t :: deliverTicks (fun s => if s = t.symbol then some t.ts else last s) rest

/-- The tick sequence a session subscribed to `subs` receives. -/
def sessionReceived (subs : List String) (ticks : List Tick) : List Tick :=
  (deliverTicks (fun _ => none) ticks).filter (fun t => subs.contains t.symbol)

/-! ## Bounded outbound queue

Modelled from the spec (§5): each session has a bounded outbound queue of
fixed capacity; on overflow the oldest queued message is dropped (the head of
the list is the oldest), and the producer is never blocked. -/

def enqueueDropOldest (cap : Nat) (q : List α) (x : α) : List α :=
  if q.length < cap then q ++ [x] else q.drop 1 ++ [x]

/-- Enqueue a whole generated sequence (a saturating burst to a slow consumer
that drains nothing meanwhile); what remains is what is eventually
delivered, in queue order. -/
def enqueueAll (cap : Nat) (q : List α) (xs : List α) : List α :=
  xs.foldl (enqueueDropOldest cap) q

/-! ## Throttle

Modelled from the spec (§4.4, §8): per (symbol, session), at most `N`
outbound tick messages per rolling one-second window (times in
milliseconds); an excess tick is coalesced into a pending slot holding the
most recent price, superseding the previous pending value, and is sent once
the window allows (a flush opportunity). -/

structure ThrottleState where
  sent : List Nat
  pending : Option ℚ

/-- Fresh throttle: nothing sent, nothing pending. -/
def ThrottleState.init : ThrottleState := ⟨[], none⟩

/-- How many recorded emissions fall in the rolling window reaching back one
second from `t`. -/
def recentCount (sent : List Nat) (t : Nat) : Nat :=
  sent.countP (fun e => t < e + 1000)

/-- A throttle input: a tick carrying a price, or a flush opportunity. -/
inductive ThEvent
  | tick (price : ℚ) (t : Nat)
  | flush (t : Nat)

def ThEvent.time : ThEvent → Nat
  | .tick _ t => t
  | .flush t => t

/-- Modelled from the spec: one throttle step.  A tick inside the rate budget
is emitted at once; an excess tick supersedes the pending price; a flush
emits the pending price when the budget allows. -/
def throttleStep (N : Nat) (st : ThrottleState) :
    ThEvent → ThrottleState × List (ℚ × Nat)
  | .tick p t =>
      if recentCount st.sent t < N then
        ({ sent := t :: st.sent, pending := none }, [(p, t)])
      else ({ st with pending := some p }, [])
  | .flush t =>
      match st.pending with
      | some p =>
          if recentCount st.sent t < N then
            ({ sent := t :: st.sent, pending := none }, [(p, t)])
          else (st, [])
      | none => (st, [])

/-- Run the throttle over an input trace, collecting emitted (price, time)
tick messages in order. -/
def throttleRun (N : Nat) (st : ThrottleState) :
    List ThEvent → ThrottleState × List (ℚ × Nat)
  | [] => (st, [])
  | e :: es =>
      let r := throttleStep N st e
      let rr := throttleRun N r.1 es
      (rr.1, r.2 ++ rr.2)

/-- The price of the last tick event of a trace, if any. -/
def lastTickPrice : List ThEvent → Option ℚ
  | [] => none
  | e :: es =>
      match lastTickPrice es with
      | some q => some q
      | none => match e with
                | .tick p _ => some p
                | .flush _ => none

/-- True of flush events. -/
def ThEvent.isFlush : ThEvent → Bool
  | .tick _ _ => false
  | .flush _ => true

/-- The price of the last tick event observed inside the rolling window
starting at `t0`, i.e. with time in the interval from `t0` up to but not
including `t0 + 1000`. -/
def lastTickPriceIn (t0 : Nat) : List ThEvent → Option ℚ
  | [] => none
  | e :: es =>
      match lastTickPriceIn t0 es with
      | some q => some q
      | none =>
          match e with
          | .tick p t => if t0 ≤ t ∧ t < t0 + 1000 then some p else none
          | .flush _ => none

/-- The EWMA recurrence exactly as the spec words it: each predicted value is
`alpha*price + (1-alpha)*previous_predicted`, threading the previous
prediction. -/
def ewmaSpecSeq (alpha prev : ℚ) : List ℚ → List ℚ
  | [] => []
  | p :: ps => (alpha * p + (1 - alpha) * prev) :: ewmaSpecSeq alpha (alpha * p + (1 - alpha) * prev) ps

/-! ## Helper lemmas -/

lemma find?_keyFilter (k k' : String) (h : ¬k' = k) :
    ∀ t : List (String × String),
      (t.filter (fun p => p.1 ≠ k)).find? (fun p => p.1 = k') =
        t.find? (fun p => p.1 = k') := by
  intro t
  induction t with
  | nil => rfl
  | cons a t ih =>
      by_cases ha : a.1 = k
      · have hne : ¬a.1 = k' := fun hh => h (hh.symm.trans ha)
        rw [List.filter_cons_of_neg (by simp [ha]), List.find?_cons_of_neg _ (by simp [hne]), ih]
      · by_cases ha' : a.1 = k'
        · rw [List.filter_cons_of_pos (by simp [ha]), List.find?_cons_of_pos _ (by simp [ha']),
            List.find?_cons_of_pos _ (by simp [ha'])]
        · rw [List.filter_cons_of_pos (by simp [ha]), List.find?_cons_of_neg _ (by simp [ha']),
            List.find?_cons_of_neg _ (by simp [ha']), ih]

lemma getHeader_setHeader (w : ResponseWriter) (k v k' : String) :
    getHeader (setHeader w k v) k' = if k' = k then some v else getHeader w k' := by
  have hs : (setHeader w k v).headers = (k, v) :: w.headers.filter (fun p => p.1 ≠ k) := rfl
  by_cases h : k' = k
  · subst h
    rw [if_pos rfl]
    unfold getHeader
    rw [hs, List.find?_cons_of_pos _ (by simp)]
    rfl
  · rw [if_neg h]
    unfold getHeader
    rw [hs,
      List.find?_cons_of_neg _ (by simp only [decide_eq_true_eq]; exact fun hh => h hh.symm),
      find?_keyFilter k k' h]

lemma outputsFor_cons_same (s : String) (e : ℚ) (rest : List (String × ℚ)) :
    outputsFor s ((s, e) :: rest) = e :: outputsFor s rest := by
  simp [outputsFor]

lemma outputsFor_cons_other {s t : String} (h : ¬t = s) (e : ℚ) (rest : List (String × ℚ)) :
    outputsFor s ((t, e) :: rest) = outputsFor s rest := by
  simp [outputsFor, h]

lemma dictInsert_same (d : String → Option ℚ) (sym : String) (e : ℚ) :
    dictInsert d sym e sym = some e := by
  simp [dictInsert]

lemma dictInsert_other (d : String → Option ℚ) {sym s : String} (h : ¬s = sym) (e : ℚ) :
    dictInsert d sym e s = d s := by
  simp [dictInsert, h]

lemma runPredictor_single (alpha : ℚ) (sym : String) :
    ∀ (ps : List ℚ) (m : BaselinePredictor) (prev : ℚ),
      m.alpha = alpha → m.ewma sym = some prev →
      outputsFor sym (runPredictor m (ps.map (fun p => (sym, p)))) = ewmaSpecSeq alpha prev ps := by
  intro ps
  induction ps with
  | nil => intro m prev _ _; rfl
  | cons p ps ih =>
      intro m prev ha he
      have hupd : update_and_predict m sym p =
          (alpha * p + (1 - alpha) * prev,
            { m with ewma := dictInsert m.ewma sym (alpha * p + (1 - alpha) * prev) }) := by
        simp [update_and_predict, he, ha]
      rw [List.map_cons]
      simp only [runPredictor, hupd, ewmaSpecSeq]
      rw [outputsFor_cons_same]
      exact congrArg _ (ih _ _ ha (dictInsert_same m.ewma sym _))

lemma hubRun_ewma_untouched (sym : String) :
    ∀ (ticks : List (String × ℚ × Nat)) (st : BaselinePredictor),
      (∀ x ∈ ticks, x.1 ≠ sym) → (hubRun st ticks).2.ewma sym = st.ewma sym := by
  intro ticks
  induction ticks with
  | nil => intro st _; rfl
  | cons x ticks ih =>
      intro st h
      obtain ⟨s, p, t⟩ := x
      have hs : ¬s = sym := h (s, p, t) (List.mem_cons_self _ _)
      have hrest : ∀ y ∈ ticks, y.1 ≠ sym := fun y hy => h y (List.mem_cons_of_mem _ hy)
      simp only [hubRun, hubOnTick, update_and_predict]
      rw [ih _ hrest]
      exact dictInsert_other st.ewma (fun hh => hs hh.symm) _

lemma runPredictor_filter (s : String) :
    ∀ (xs : List (String × ℚ)) (m m' : BaselinePredictor),
      m.alpha = m'.alpha → m.ewma s = m'.ewma s →
      outputsFor s (runPredictor m xs) =
        outputsFor s (runPredictor m' (xs.filter (fun x => x.1 = s))) := by
  intro xs
  induction xs with
  | nil => intro m m' _ _; rfl
  | cons x xs ih =>
      intro m m' ha he
      obtain ⟨t, p⟩ := x
      by_cases ht : t = s
      · subst ht
        have hupd : update_and_predict m t p =
            (m'.alpha * p + (1 - m'.alpha) * (m'.ewma t).getD p,
              { m with ewma :=
                  dictInsert m.ewma t (m'.alpha * p + (1 - m'.alpha) * (m'.ewma t).getD p) }) := by
          simp [update_and_predict, ha, he]
        have hupd' : update_and_predict m' t p =
            (m'.alpha * p + (1 - m'.alpha) * (m'.ewma t).getD p,
              { m' with ewma :=
                  dictInsert m'.ewma t (m'.alpha * p + (1 - m'.alpha) * (m'.ewma t).getD p) }) := by
          simp [update_and_predict]
        rw [List.filter_cons_of_pos (by simp)]
        simp only [runPredictor, hupd, hupd']
        rw [outputsFor_cons_same, outputsFor_cons_same]
        refine congrArg _ (ih _ _ ha ?_)
        show dictInsert m.ewma t (m'.alpha * p + (1 - m'.alpha) * (m'.ewma t).getD p) t =
          dictInsert m'.ewma t (m'.alpha * p + (1 - m'.alpha) * (m'.ewma t).getD p) t
        rw [dictInsert_same, dictInsert_same]
      · rw [List.filter_cons_of_neg (by simp [ht])]
        simp only [runPredictor]
        rw [outputsFor_cons_other ht]
        refine (ih _ _ ha ?_)
        show dictInsert m.ewma t _ s = m'.ewma s
        exact (dictInsert_other m.ewma (fun hh => ht hh.symm) _).trans he

lemma any_fst_iff (l : List (String × Nat)) (q : String) :
    l.any (fun p => p.1 = q) = true ↔ ∃ c, (q, c) ∈ l := by
  rw [List.any_eq_true]
  constructor
  · rintro ⟨p, hp, hp1⟩
    have h1 : p.1 = q := by simpa using hp1
    refine ⟨p.2, ?_⟩
    rw [← h1]
    simpa using hp
  · rintro ⟨c, hc⟩
    exact ⟨(q, c), hc, by simp⟩

lemma any_filter_ne (l : List (String × Nat)) (sym q : String) (sid : Nat) (h : ¬q = sym) :
    (l.filter (fun p => p ≠ (sym, sid))).any (fun p => p.1 = q) =
      l.any (fun p => p.1 = q) := by
  induction l with
  | nil => rfl
  | cons a l ih =>
      by_cases ha : a = (sym, sid)
      · subst ha
        rw [List.filter_cons_of_neg (by simp), List.any_cons]
        have hd : (decide ((sym, sid).1 = q)) = false := by
          simp only [decide_eq_false_iff_not]
          exact fun hh => h hh.symm
        rw [hd, Bool.false_or, ih]
      · rw [List.filter_cons_of_pos (by simpa using ha), List.any_cons, List.any_cons, ih]

lemma addInterest_inv (st : RegState) (sym : String) (sid : Nat)
    (h : ∀ q, q ∈ st.upstream ↔ st.interest.any (fun p => p.1 = q) = true) (q : String) :
    q ∈ (addInterest st sym sid).upstream ↔
      (addInterest st sym sid).interest.any (fun p => p.1 = q) = true := by
  unfold addInterest
  by_cases hmem : (sym, sid) ∈ st.interest
  · rw [if_pos hmem]
    exact h q
  · rw [if_neg hmem]
    by_cases hany : st.interest.any (fun p => p.1 = sym) = true
    · simp only [if_pos hany, List.any_cons]
      by_cases hq : q = sym
      · subst hq
        refine iff_of_true ((h q).mpr hany) ?_
        simp
      · have hd : (decide ((sym, sid).1 = q)) = false := by
          simp only [decide_eq_false_iff_not]
          exact fun hh => hq hh.symm
        rw [hd, Bool.false_or]
        exact h q
    · simp only [if_neg hany, List.any_cons, List.mem_cons]
      by_cases hq : q = sym
      · subst hq
        exact iff_of_true (Or.inl rfl) (by simp)
      · have hd : (decide ((sym, sid).1 = q)) = false := by
          simp only [decide_eq_false_iff_not]
          exact fun hh => hq hh.symm
        rw [hd, Bool.false_or]
        have : (q = sym ∨ q ∈ st.upstream) ↔ q ∈ st.upstream := by
          simp [hq]
        rw [this]
        exact h q

lemma removeInterest_inv (st : RegState) (sym : String) (sid : Nat)
    (h : ∀ q, q ∈ st.upstream ↔ st.interest.any (fun p => p.1 = q) = true) (q : String) :
    q ∈ (removeInterest st sym sid).upstream ↔
      (removeInterest st sym sid).interest.any (fun p => p.1 = q) = true := by
  simp only [removeInterest]
  by_cases hany : (st.interest.filter (fun p => p ≠ (sym, sid))).any (fun p => p.1 = sym) = true
  · rw [if_pos hany]
    by_cases hq : q = sym
    · subst hq
      have hint : st.interest.any (fun p => p.1 = q) = true := by
        rcases List.any_eq_true.mp hany with ⟨p, hp, hp1⟩
        exact List.any_eq_true.mpr ⟨p, List.mem_of_mem_filter hp, hp1⟩
      exact iff_of_true ((h q).mpr hint) hany
    · rw [any_filter_ne st.interest sym q sid hq]
      exact h q
  · rw [if_neg hany]
    by_cases hq : q = sym
    · subst hq
      refine iff_of_false ?_ hany
      intro hmem
      rcases List.mem_filter.mp hmem with ⟨-, hq2⟩
      simp at hq2
    · have hup : q ∈ st.upstream.filter (fun t => t ≠ sym) ↔ q ∈ st.upstream := by
        simp [List.mem_filter, hq]
      rw [hup, any_filter_ne st.interest sym q sid hq]
      exact h q

lemma foldl_remove_inv (sid : Nat) :
    ∀ (syms : List String) (st : RegState),
      (∀ q, q ∈ st.upstream ↔ st.interest.any (fun p => p.1 = q) = true) →
      ∀ q, q ∈ (syms.foldl (fun s y => removeInterest s y sid) st).upstream ↔
        (syms.foldl (fun s y => removeInterest s y sid) st).interest.any
          (fun p => p.1 = q) = true := by
  intro syms
  induction syms with
  | nil => intro st h; exact h
  | cons y syms ih =>
      intro st h
      rw [List.foldl_cons]
      exact ih _ (fun q => removeInterest_inv st y sid h q)

lemma regStep_inv (st : RegState) (e : RegEvent)
    (h : ∀ q, q ∈ st.upstream ↔ st.interest.any (fun p => p.1 = q) = true) :
    ∀ q, q ∈ (regStep st e).upstream ↔
      (regStep st e).interest.any (fun p => p.1 = q) = true := by
  cases e with
  | sub sym sid => exact fun q => addInterest_inv st sym sid h q
  | unsub sym sid => exact fun q => removeInterest_inv st sym sid h q
  | disconnect sid => exact foldl_remove_inv sid _ st h

lemma regFold_inv :
    ∀ (es : List RegEvent) (st : RegState),
      (∀ q, q ∈ st.upstream ↔ st.interest.any (fun p => p.1 = q) = true) →
      ∀ q, q ∈ (es.foldl regStep st).upstream ↔
        (es.foldl regStep st).interest.any (fun p => p.1 = q) = true := by
  intro es
  induction es with
  | nil => intro st h; exact h
  | cons e es ih =>
      intro st h
      rw [List.foldl_cons]
      exact ih _ (regStep_inv st e h)

lemma deliverTicks_sublist :
    ∀ (ts : List Tick) (last : String → Option Nat),
      List.Sublist (deliverTicks last ts) ts := by
  intro ts
  induction ts with
  | nil => intro last; simp [deliverTicks]
  | cons t ts ih =>
      intro last
      rw [deliverTicks]
      rcases hl : last t.symbol with _ | m
      · simp only
        exact List.Sublist.cons₂ t (ih _)
      · simp only
        by_cases hts : t.ts ≤ m
        · rw [if_pos hts]
          exact List.Sublist.cons t (ih _)
        · rw [if_neg hts]
          exact List.Sublist.cons₂ t (ih _)

lemma deliverTicks_lb :
    ∀ (ts : List Tick) (last : String → Option Nat) (u : Tick),
      u ∈ deliverTicks last ts → ∀ m, last u.symbol = some m → m < u.ts := by
  intro ts
  induction ts with
  | nil => intro last u hu; simp [deliverTicks] at hu
  | cons t ts ih =>
      intro last u hu m hm
      rw [deliverTicks] at hu
      rcases hl : last t.symbol with _ | m0
      · rw [hl] at hu
        simp only at hu
        rcases List.mem_cons.mp hu with rfl | hu2
        · rw [hm] at hl
          exact absurd hl (by simp)
        · by_cases hsym : u.symbol = t.symbol
          · rw [hsym, hl] at hm
            exact absurd hm (by simp)
          · exact ih _ u hu2 m (by simpa [hsym] using hm)
      · rw [hl] at hu
        simp only at hu
        by_cases hts : t.ts ≤ m0
        · rw [if_pos hts] at hu
          exact ih _ u hu m hm
        · rw [if_neg hts] at hu
          rcases List.mem_cons.mp hu with rfl | hu2
          · rw [hm] at hl
            have : m = m0 := by simpa using hl
            omega
          · by_cases hsym : u.symbol = t.symbol
            · have h1 : t.ts < u.ts := ih _ u hu2 t.ts (by simp [hsym])
              have h2 : m = m0 := by
                rw [hsym] at hm
                rw [hm] at hl
                simpa using hl
              omega
            · exact ih _ u hu2 m (by simpa [hsym] using hm)

lemma deliverTicks_pairwise (sym : String) :
    ∀ (ts : List Tick) (last : String → Option Nat),
      List.Pairwise (fun a b : Tick => a.ts < b.ts)
        ((deliverTicks last ts).filter (fun u => u.symbol = sym)) := by
  intro ts
  induction ts with
  | nil => intro last; simp [deliverTicks]
  | cons t ts ih =>
      intro last
      rw [deliverTicks]
      rcases hl : last t.symbol with _ | m0
      · simp only
        by_cases hsym : t.symbol = sym
        · rw [List.filter_cons_of_pos (by simp [hsym])]
          refine List.Pairwise.cons ?_ (ih _)
          intro b hb
          rcases List.mem_filter.mp hb with ⟨hb1, hb2⟩
          have hbs : b.symbol = sym := by simpa using hb2
          exact deliverTicks_lb ts _ b hb1 t.ts (by simp [hbs, hsym])
        · rw [List.filter_cons_of_neg (by simp [hsym])]
          exact ih _
      · simp only
        by_cases hts : t.ts ≤ m0
        · rw [if_pos hts]
          exact ih _
        · rw [if_neg hts]
          by_cases hsym : t.symbol = sym
          · rw [List.filter_cons_of_pos (by simp [hsym])]
            refine List.Pairwise.cons ?_ (ih _)
            intro b hb
            rcases List.mem_filter.mp hb with ⟨hb1, hb2⟩
            have hbs : b.symbol = sym := by simpa using hb2
            exact deliverTicks_lb ts _ b hb1 t.ts (by simp [hbs, hsym])
          · rw [List.filter_cons_of_neg (by simp [hsym])]
            exact ih _

lemma enqueueAll_drop (cap : Nat) (hcap : 0 < cap) :
    ∀ (xs q : List α), q.length ≤ cap →
      enqueueAll cap q xs = (q ++ xs).drop (q.length + xs.length - cap) := by
  intro xs
  induction xs with
  | nil =>
      intro q hq
      have h0 : q.length - cap = 0 := by omega
      simp [enqueueAll, h0]
  | cons x xs ih =>
      intro q hq
      have hstep : enqueueAll cap q (x :: xs) =
          enqueueAll cap (enqueueDropOldest cap q x) xs := by
        simp [enqueueAll]
      by_cases hlt : q.length < cap
      · have hq1 : enqueueDropOldest cap q x = q ++ [x] := by
          simp [enqueueDropOldest, hlt]
        have hlen : (q ++ [x]).length ≤ cap := by
          simp only [List.length_append, List.length_cons, List.length_nil]
          omega
        rw [hstep, hq1, ih (q ++ [x]) hlen]
        have harr : q ++ [x] ++ xs = q ++ x :: xs := by simp
        rw [harr]
        congr 1
        simp only [List.length_append, List.length_cons, List.length_nil]
        omega
      · have hq0 : q.length = cap := le_antisymm hq (Nat.le_of_not_lt hlt)
        cases q with
        | nil =>
            exfalso
            simp only [List.length_nil] at hq0
            omega
        | cons a q0 =>
            have hq1 : enqueueDropOldest cap (a :: q0) x = q0 ++ [x] := by
              unfold enqueueDropOldest
              rw [if_neg hlt]
              simp
            have hlen : (q0 ++ [x]).length ≤ cap := by
              simp only [List.length_cons] at hq0
              simp only [List.length_append, List.length_cons, List.length_nil]
              omega
            rw [hstep, hq1, ih (q0 ++ [x]) hlen]
            have h1 : (q0 ++ [x]).length + xs.length - cap = xs.length := by
              simp only [List.length_cons] at hq0
              simp only [List.length_append, List.length_cons, List.length_nil]
              omega
            have h2 : (a :: q0).length + (x :: xs).length - cap = xs.length + 1 := by
              simp only [List.length_cons] at hq0 ⊢
              omega
            rw [h1, h2, List.cons_append, List.drop_succ_cons]
            congr 1
            simp

lemma lastTickPrice_nil : lastTickPrice [] = none := rfl

lemma lastTickPrice_cons (e : ThEvent) (es : List ThEvent) :
    lastTickPrice (e :: es) =
      match lastTickPrice es with
      | some q => some q
      | none =>
          match e with
          | .tick p _ => some p
          | .flush _ => none := rfl

lemma throttleRun_sent (N : Nat) :
    ∀ (es : List ThEvent) (st : ThrottleState),
      (throttleRun N st es).1.sent =
        ((throttleRun N st es).2.map Prod.snd).reverse ++ st.sent := by
  intro es
  induction es with
  | nil => intro st; simp [throttleRun]
  | cons e es ih =>
      intro st
      simp only [throttleRun]
      cases e with
      | tick p t =>
          by_cases hc : recentCount st.sent t < N
          · simp only [throttleStep, if_pos hc]
            rw [ih]
            simp
          · simp only [throttleStep, if_neg hc]
            rw [ih]
            simp
      | flush t =>
          cases hp : st.pending with
          | some p =>
              by_cases hc : recentCount st.sent t < N
              · simp only [throttleStep, hp, if_pos hc]
                rw [ih]
                simp
              · simp only [throttleStep, hp, if_neg hc]
                rw [ih]
                simp
          | none =>
              simp only [throttleStep, hp]
              rw [ih]
              simp

lemma window_after_emit (N t : Nat) (sent : List Nat) (hc : recentCount sent t < N)
    (h : ∀ t0, sent.countP (fun e => decide (t0 ≤ e ∧ e < t0 + 1000)) ≤ N) :
    ∀ t0, (t :: sent).countP (fun e => decide (t0 ≤ e ∧ e < t0 + 1000)) ≤ N := by
  intro t0
  rw [List.countP_cons]
  by_cases hw : t0 ≤ t ∧ t < t0 + 1000
  · have hmono : sent.countP (fun e => decide (t0 ≤ e ∧ e < t0 + 1000)) ≤ recentCount sent t := by
      unfold recentCount
      refine List.countP_mono_left ?_
      intro e _ he
      simp only [decide_eq_true_eq] at he ⊢
      omega
    rw [decide_eq_true hw]
    simp only [if_pos]
    omega
  · rw [decide_eq_false hw]
    simp only [Bool.false_eq_true, if_false]
    exact Nat.le_trans (Nat.le_add_right _ 0) (h t0)

lemma sent_window_bound (N : Nat) :
    ∀ (es : List ThEvent) (st : ThrottleState),
      (∀ t0, st.sent.countP (fun e => decide (t0 ≤ e ∧ e < t0 + 1000)) ≤ N) →
      ∀ t0, (throttleRun N st es).1.sent.countP
        (fun e => decide (t0 ≤ e ∧ e < t0 + 1000)) ≤ N := by
  intro es
  induction es with
  | nil => intro st h; exact h
  | cons e es ih =>
      intro st h
      simp only [throttleRun]
      cases e with
      | tick p t =>
          by_cases hc : recentCount st.sent t < N
          · simp only [throttleStep, if_pos hc]
            exact ih _ (window_after_emit N t st.sent hc h)
          · simp only [throttleStep, if_neg hc]
            exact ih _ h
      | flush t =>
          cases hp : st.pending with
          | some p =>
              by_cases hc : recentCount st.sent t < N
              · simp only [throttleStep, hp, if_pos hc]
                exact ih _ (window_after_emit N t st.sent hc h)
              · simp only [throttleStep, hp, if_neg hc]
                exact ih _ h
          | none =>
              simp only [throttleStep, hp]
              exact ih _ h

lemma noTick_pending_none (N : Nat) :
    ∀ (es : List ThEvent) (st : ThrottleState),
      (∀ e ∈ es, e.isFlush = true) → st.pending = none →
      throttleRun N st es = (st, []) := by
  intro es
  induction es with
  | nil => intro st _ _; rfl
  | cons e es ih =>
      intro st hall hp
      cases e with
      | tick p t =>
          have := hall (ThEvent.tick p t) (List.mem_cons_self _ _)
          simp [ThEvent.isFlush] at this
      | flush t =>
          have hrest : ∀ e ∈ es, e.isFlush = true :=
            fun e he => hall e (List.mem_cons_of_mem _ he)
          simp only [throttleRun, throttleStep, hp]
          rw [ih st hrest hp]
          rfl

lemma noTick_pending_some (N : Nat) :
    ∀ (es : List ThEvent) (st : ThrottleState) (p : ℚ),
      (∀ e ∈ es, e.isFlush = true) → st.pending = some p →
      ((throttleRun N st es).1.pending = some p ∨
        ((throttleRun N st es).2.getLast?.map Prod.fst = some p)) := by
  intro es
  induction es with
  | nil => intro st p _ hp; exact Or.inl hp
  | cons e es ih =>
      intro st p hall hp
      cases e with
      | tick q t =>
          have := hall (ThEvent.tick q t) (List.mem_cons_self _ _)
          simp [ThEvent.isFlush] at this
      | flush t =>
          have hrest : ∀ e ∈ es, e.isFlush = true :=
            fun e he => hall e (List.mem_cons_of_mem _ he)
          simp only [throttleRun, throttleStep, hp]
          by_cases hc : recentCount st.sent t < N
          · rw [if_pos hc]
            rw [noTick_pending_none N es ⟨t :: st.sent, none⟩ hrest rfl]
            simp
          · rw [if_neg hc]
            simpa using ih st p hrest hp

lemma lastTick_none_all_flush :
    ∀ (es : List ThEvent), lastTickPrice es = none → ∀ e ∈ es, e.isFlush = true := by
  intro es
  induction es with
  | nil => intro _ e he; simp at he
  | cons e es ih =>
      intro h
      rw [lastTickPrice_cons] at h
      cases hle : lastTickPrice es with
      | some q =>
          rw [hle] at h
          simp at h
      | none =>
          cases e with
          | tick p t =>
              rw [hle] at h
              simp at h
          | flush t =>
              intro x hx
              rcases List.mem_cons.mp hx with rfl | hx2
              · rfl
              · exact ih hle x hx2

lemma throttle_coalesce_aux (N : Nat) :
    ∀ (es : List ThEvent) (st : ThrottleState) (p : ℚ),
      lastTickPrice es = some p →
      ((throttleRun N st es).1.pending = some p ∨
        ((throttleRun N st es).2.getLast?.map Prod.fst = some p)) := by
  intro es
  induction es with
  | nil => intro st p h; rw [lastTickPrice_nil] at h; exact absurd h (by simp)
  | cons e es ih =>
      intro st p h
      rw [lastTickPrice_cons] at h
      cases hle : lastTickPrice es with
      | some q =>
          have hpq : q = p := by
            rw [hle] at h
            simpa using h
          subst hpq
          simp only [throttleRun]
          rcases ih (throttleStep N st e).1 q hle with h1 | h2
          · exact Or.inl h1
          · refine Or.inr ?_
            rw [List.getLast?_append]
            rcases ho : (throttleRun N (throttleStep N st e).1 es).2.getLast? with _ | a
            · rw [ho] at h2
              simp at h2
            · rw [ho] at h2
              rw [Option.or_some]
              exact h2
      | none =>
          cases e with
          | flush t =>
              rw [hle] at h
              simp at h
          | tick pe t =>
              have hpe : pe = p := by
                rw [hle] at h
                simpa using h
              subst hpe
              have hall := lastTick_none_all_flush es hle
              simp only [throttleRun, throttleStep]
              by_cases hc : recentCount st.sent t < N
              · rw [if_pos hc]
                rw [noTick_pending_none N es ⟨t :: st.sent, none⟩ hall rfl]
                simp
              · rw [if_neg hc]
                simpa using noTick_pending_some N es { st with pending := some pe } pe hall rfl

/-! ## Claim theorems -/

/-- C9: `Handlers.GetStock` always succeeds and returns an object whose
`symbol` field equals the path parameter verbatim, every other field being
the fixed placeholder constant (`100.50 = 201/2`, `1.25 = 5/4`,
`15.5 = 31/2`); no symbol is ever rejected. -/
theorem GetStock_placeholder (s : String) :
    (GetStock s).symbol = s ∧ (GetStock s).name = "Sample Stock" ∧
    (GetStock s).price = 201/2 ∧ (GetStock s).change = 5/4 ∧
    (GetStock s).volume = 1000000 ∧ (GetStock s).market_cap = "1B" ∧
    (GetStock s).pe_ratio = 31/2 :=
  ⟨rfl, rfl, by norm_num [GetStock], by norm_num [GetStock], rfl, rfl, by norm_num [GetStock]⟩

/-- C10: `corsMiddleware` answers every OPTIONS request with status 200
without invoking the wrapped handler (the result does not depend on `next`),
and for every request it has set `Access-Control-Allow-Origin: *` on the
writer before any handler runs. -/
theorem corsMiddleware_spec (next next' : Handler) (w : ResponseWriter) (r : Request) :
    (r.method = "OPTIONS" →
      corsMiddleware next w r = { corsHeaders w with status := some 200 } ∧
      corsMiddleware next w r = corsMiddleware next' w r) ∧
    (r.method ≠ "OPTIONS" → corsMiddleware next w r = next (corsHeaders w) r) ∧
    getHeader (corsHeaders w) "Access-Control-Allow-Origin" = some "*" := by
  refine ⟨fun h => ?_, fun h => ?_, ?_⟩
  · constructor <;> simp [corsMiddleware, corsHeaders, h]
  · simp [corsMiddleware, corsHeaders, h]
  · simp only [corsHeaders, getHeader_setHeader]
    rw [if_neg (by decide), if_neg (by decide)]
    simp

/-- Witness for C10 at a concrete OPTIONS request. -/
theorem corsMiddleware_spec_witness :
    corsMiddleware (fun w _ => w) ⟨[], none⟩ ⟨"OPTIONS"⟩ =
      { corsHeaders ⟨[], none⟩ with status := some 200 } ∧
    getHeader (corsHeaders ⟨[], none⟩) "Access-Control-Allow-Origin" = some "*" :=
  ⟨((corsMiddleware_spec (fun w _ => w) (fun w _ => w) ⟨[], none⟩ ⟨"OPTIONS"⟩).1 rfl).1,
   (corsMiddleware_spec (fun w _ => w) (fun w _ => w) ⟨[], none⟩ ⟨"OPTIONS"⟩).2.2⟩

/-- C2: running the predictor on a per-symbol sequence `p1 :: ps` yields the
spec's EWMA recurrence with the previous prediction initialized to the first
observed price `p1` (the first call returns `p1` itself, since
`alpha*p1 + (1-alpha)*p1 = p1`); in particular `[100, 102]` with
`alpha = 3/10` yields `100.6 = 503/5` on the second observation. -/
theorem update_and_predict_ewma (alpha p1 : ℚ) (ps : List ℚ) (sym : String) :
    outputsFor sym
        (runPredictor (BaselinePredictor.init alpha) ((p1 :: ps).map (fun p => (sym, p)))) =
      p1 :: ewmaSpecSeq alpha p1 ps ∧
    outputsFor "AAPL"
        (runPredictor (BaselinePredictor.init (3/10)) [("AAPL", 100), ("AAPL", 102)]) =
      [100, 503/5] := by
  constructor
  · have hfirst : alpha * p1 + (1 - alpha) * p1 = p1 := by ring
    have hupd : update_and_predict (BaselinePredictor.init alpha) sym p1 =
        (p1, { alpha := alpha, ewma := dictInsert (fun _ => none) sym p1 }) := by
      simp [update_and_predict, BaselinePredictor.init, dictInsert, hfirst]
    rw [List.map_cons]
    simp only [runPredictor, hupd]
    rw [outputsFor_cons_same]
    exact congrArg _ (runPredictor_single alpha sym ps
      { alpha := alpha, ewma := dictInsert (fun _ => none) sym p1 } p1 rfl
      (by simp [dictInsert]))
  · norm_num [runPredictor, BaselinePredictor.init, update_and_predict, dictInsert, outputsFor]

/-- C3: when the hub processes the very first tick ever observed for a symbol
(no earlier tick of that symbol), it emits only the tick message — no
prediction — and the first observed price becomes the EWMA baseline. -/
theorem hub_first_tick_no_prediction (alpha : ℚ) (pre : List (String × ℚ × Nat))
    (sym : String) (p : ℚ) (t : Nat) (h : ∀ x ∈ pre, x.1 ≠ sym) :
    (hubOnTick (hubRun (BaselinePredictor.init alpha) pre).2 sym p t).1 =
      [OutMsg.tick sym p t] ∧
    (hubOnTick (hubRun (BaselinePredictor.init alpha) pre).2 sym p t).2.ewma sym = some p := by
  have hnone : (hubRun (BaselinePredictor.init alpha) pre).2.ewma sym = none := by
    rw [hubRun_ewma_untouched sym pre _ h]; rfl
  have halpha : (hubRun (BaselinePredictor.init alpha) pre).2.alpha *
      p + (1 - (hubRun (BaselinePredictor.init alpha) pre).2.alpha) * p = p := by ring
  constructor
  · simp [hubOnTick, hnone]
  · simp [hubOnTick, update_and_predict, hnone, dictInsert, halpha]

/-- Witness for C3: after a tick for MSFT only, the first AAPL tick emits no
prediction and sets the baseline. -/
theorem hub_first_tick_no_prediction_witness :
    (∀ x ∈ [(("MSFT" : String), (1 : ℚ), (1 : Nat))], x.1 ≠ "AAPL") ∧
    (hubOnTick (hubRun (BaselinePredictor.init (3/10)) [("MSFT", 1, 1)]).2 "AAPL" 5 2).1 =
      [OutMsg.tick "AAPL" 5 2] ∧
    (hubOnTick (hubRun (BaselinePredictor.init (3/10)) [("MSFT", 1, 1)]).2 "AAPL" 5 2).2.ewma
        "AAPL" = some 5 :=
  ⟨by decide, hub_first_tick_no_prediction (3/10) [("MSFT", 1, 1)] "AAPL" 5 2 (by decide)⟩

/-- C7: predictor determinism and cross-symbol noninterference — the output
trace for a symbol depends only on that symbol's observation subsequence, so
two interleavings agreeing on a symbol's observations produce identical
outputs for it. -/
theorem runPredictor_noninterference (m : BaselinePredictor) (s : String)
    (xs ys : List (String × ℚ)) (h : xs.filter (fun x => x.1 = s) = ys.filter (fun x => x.1 = s)) :
    outputsFor s (runPredictor m xs) = outputsFor s (runPredictor m ys) := by
  rw [runPredictor_filter s xs m m rfl rfl, runPredictor_filter s ys m m rfl rfl, h]

/-- C1: registry reference-count invariant — after any finite sequence of
subscribe, unsubscribe and session-teardown events, interleaved arbitrarily
across sessions, a symbol is subscribed upstream iff at least one session
currently holds interest in it. -/
theorem registry_refcount_invariant (es : List RegEvent) (sym : String) :
    sym ∈ (regRun es).upstream ↔ ∃ sid, (sym, sid) ∈ (regRun es).interest := by
  rw [← any_fst_iff]
  exact regFold_inv es RegState.init (fun q => by simp [RegState.init]) sym

/-- C8: protocol-error containment — a malformed inbound message, or one
naming an unknown symbol, yields exactly one StatusEvent error reply to the
offending session, the session stays open (active set unchanged), and the
hub state is left untouched. -/
theorem handleInbound_error_containment (known : List String) (st : HubState) (sid : Nat)
    (msg : InMsg) (h : protocolError known msg = true) :
    (handleInbound known st sid msg).1 = st ∧
    (handleInbound known st sid msg).1.active = st.active ∧
    ∃ d, (handleInbound known st sid msg).2 = [(sid, OutMsg.statusError d)] := by
  cases msg with
  | subscribe sym =>
      have hmem : ¬sym ∈ known := by simpa [protocolError] using h
      refine ⟨?_, ?_, "unknown symbol", ?_⟩ <;> simp [handleInbound, hmem]
  | unsubscribe sym =>
      have hmem : ¬sym ∈ known := by simpa [protocolError] using h
      refine ⟨?_, ?_, "unknown symbol", ?_⟩ <;> simp [handleInbound, hmem]
  | malformed raw =>
      exact ⟨rfl, rfl, "malformed message", rfl⟩

/-- Witness for C8: subscribing to an unknown symbol TSLA leaves the hub
state and active sessions unchanged and replies with one error. -/
theorem handleInbound_error_containment_witness :
    protocolError ["AAPL"] (InMsg.subscribe "TSLA") = true ∧
    ((handleInbound ["AAPL"] ⟨RegState.init, [7]⟩ 7 (InMsg.subscribe "TSLA")).1 =
        ⟨RegState.init, [7]⟩ ∧
      (handleInbound ["AAPL"] ⟨RegState.init, [7]⟩ 7 (InMsg.subscribe "TSLA")).1.active = [7] ∧
      ∃ d, (handleInbound ["AAPL"] ⟨RegState.init, [7]⟩ 7 (InMsg.subscribe "TSLA")).2 =
        [(7, OutMsg.statusError d)]) :=
  ⟨by decide,
   handleInbound_error_containment ["AAPL"] ⟨RegState.init, [7]⟩ 7 (InMsg.subscribe "TSLA")
     (by decide)⟩

/-- C4: stale-tick suppression — the ticks a session receives for any symbol
carry strictly increasing timestamps (a tick whose timestamp is not strictly
greater than the last delivered one for its symbol never appears), and the
received sequence is a subsequence of the incoming stream (never
reordered). -/
theorem stale_tick_suppression (subs : List String) (ticks : List Tick) (sym : String) :
    List.Pairwise (fun a b : Tick => a.ts < b.ts)
      ((sessionReceived subs ticks).filter (fun u => u.symbol = sym)) ∧
    List.Sublist (sessionReceived subs ticks) ticks := by
  constructor
  · have h1 : List.Sublist
        (((deliverTicks (fun _ => none) ticks).filter
            (fun t => subs.contains t.symbol)).filter (fun u => u.symbol = sym))
        ((deliverTicks (fun _ => none) ticks).filter (fun u => u.symbol = sym)) :=
      List.Sublist.filter _ (List.filter_sublist _)
    exact (deliverTicks_pairwise sym ticks (fun _ => none)).sublist h1
  · exact (List.filter_sublist _).trans (deliverTicks_sublist ticks (fun _ => none))

/-- C6: queue-overflow suffix property — enqueueing a generated sequence into
a bounded drop-oldest queue of positive capacity leaves exactly the suffix of
the sequence that fits; only an oldest prefix is lost, order is preserved,
and the producer never blocks (`enqueueAll` is total). -/
theorem queue_overflow_suffix (cap : Nat) (hcap : 0 < cap) (xs : List OutMsg) :
    enqueueAll cap [] xs = xs.drop (xs.length - cap) := by
  have h := enqueueAll_drop cap hcap xs [] (by simp)
  simpa using h

/-- Witness for C6: capacity 2 keeps the last two of three messages. -/
theorem queue_overflow_suffix_witness :
    0 < 2 ∧
    enqueueAll 2 []
        [OutMsg.statusError "a", OutMsg.statusError "b", OutMsg.statusError "c"] =
      [OutMsg.statusError "a", OutMsg.statusError "b", OutMsg.statusError "c"].drop
        ([OutMsg.statusError "a", OutMsg.statusError "b", OutMsg.statusError "c"].length - 2) :=
  ⟨by decide,
   queue_overflow_suffix 2 (by decide)
     [OutMsg.statusError "a", OutMsg.statusError "b", OutMsg.statusError "c"]⟩

/-- C5 counterexample: with budget `N = 1`, ticks priced 10 at t = 0 and 20
at t = 1 and the next flush opportunity only at t = 2000, the last tick
message emitted inside the rolling window starting at 0 carries price 10,
while the most recent price observed during that window is 20: the coalesced
price is sent only after the window closes, so the claim's literal statement
— the last tick message inside each window carries the most recent price
observed during that window — fails on this input. -/
theorem throttle_window_price_counterexample :
    lastTickPriceIn 0 [ThEvent.tick 10 0, ThEvent.tick 20 1, ThEvent.flush 2000] = some 20 ∧
    (((throttleRun 1 ThrottleState.init
        [ThEvent.tick 10 0, ThEvent.tick 20 1, ThEvent.flush 2000]).2.filter
          (fun o => decide (0 ≤ o.2 ∧ o.2 < 0 + 1000))).getLast?.map Prod.fst = some 10) ∧
    ¬(((throttleRun 1 ThrottleState.init
        [ThEvent.tick 10 0, ThEvent.tick 20 1, ThEvent.flush 2000]).2.filter
          (fun o => decide (0 ≤ o.2 ∧ o.2 < 0 + 1000))).getLast?.map Prod.fst =
        lastTickPriceIn 0 [ThEvent.tick 10 0, ThEvent.tick 20 1, ThEvent.flush 2000]) :=
  ⟨rfl, rfl, by decide⟩

/-- C5 (amended): throttle bound with coalescing — over any input trace, a
(symbol, session) pair receives at most `N` tick messages inside any rolling
one-second window, and the most recent price observed is never dropped
without being superseded: it is either the price of the last emitted tick
message or is held pending (superseding older coalesced prices) for the next
allowed send, which may fall only after the window in which it was
observed. -/
theorem throttle_bound_and_coalesce (N : Nat) (es : List ThEvent) :
    (∀ t0, ((throttleRun N ThrottleState.init es).2.countP
        (fun o => decide (t0 ≤ o.2 ∧ o.2 < t0 + 1000))) ≤ N) ∧
    (∀ p, lastTickPrice es = some p →
      ((throttleRun N ThrottleState.init es).1.pending = some p ∨
        ((throttleRun N ThrottleState.init es).2.getLast?.map Prod.fst = some p))) := by
  constructor
  · intro t0
    have hsent := throttleRun_sent N es ThrottleState.init
    have hb := sent_window_bound N es ThrottleState.init
      (by intro t1; simp [ThrottleState.init]) t0
    rw [hsent] at hb
    simp only [ThrottleState.init, List.append_nil, List.countP_reverse,
      List.countP_map] at hb
    exact hb
  · intro p hp
    exact throttle_coalesce_aux N es ThrottleState.init p hp

/-- Witness for C5: with budget 1, the second tick in the same second is
coalesced and its price goes out on the later flush. -/
theorem throttle_bound_and_coalesce_witness :
    lastTickPrice [ThEvent.tick 10 0, ThEvent.tick 20 1, ThEvent.flush 2000] = some 20 ∧
    ((throttleRun 1 ThrottleState.init
        [ThEvent.tick 10 0, ThEvent.tick 20 1, ThEvent.flush 2000]).2.countP
      (fun o => decide (0 ≤ o.2 ∧ o.2 < 0 + 1000))) ≤ 1 ∧
    ((throttleRun 1 ThrottleState.init
        [ThEvent.tick 10 0, ThEvent.tick 20 1, ThEvent.flush 2000]).1.pending = some 20 ∨
      ((throttleRun 1 ThrottleState.init
        [ThEvent.tick 10 0, ThEvent.tick 20 1, ThEvent.flush 2000]).2.getLast?.map
          Prod.fst = some 20)) :=
  ⟨rfl,
   (throttle_bound_and_coalesce 1 [ThEvent.tick 10 0, ThEvent.tick 20 1,
      ThEvent.flush 2000]).1 0,
   (throttle_bound_and_coalesce 1 [ThEvent.tick 10 0, ThEvent.tick 20 1,
      ThEvent.flush 2000]).2 20 rfl⟩

/-- Witness for C7 at two concrete interleavings of symbol A with B and C. -/
theorem runPredictor_noninterference_witness :
    ([(("A" : String), (1 : ℚ)), ("B", 5), ("A", 2)].filter (fun x => x.1 = "A") =
      [(("A" : String), (1 : ℚ)), ("A", 2), ("C", 7)].filter (fun x => x.1 = "A")) ∧
    outputsFor "A" (runPredictor (BaselinePredictor.init (3/10))
        [("A", 1), ("B", 5), ("A", 2)]) =
      outputsFor "A" (runPredictor (BaselinePredictor.init (3/10))
        [("A", 1), ("A", 2), ("C", 7)]) :=
  ⟨by decide,
   runPredictor_noninterference (BaselinePredictor.init (3/10)) "A"
     [("A", 1), ("B", 5), ("A", 2)] [("A", 1), ("A", 2), ("C", 7)] (by decide)⟩

end QuantDash
